import Mathlib

/-!
# TypeFlow: scoring and progression engine of `src/App.jsx`

A shallow embedding of the state-transition logic of the `TypingWebsite`
component: the XP curve and the level-up loop, the rank table lookups, the
achievement rules, the per-keystroke metrics of `handleInput`, the completion
handler `finishTest` and the timer callback.

Modelling conventions.

* The component is a React function component.  Every handler is a closure over
  the values of the state variables of the render that created it (the
  *snapshot*), and every `setX(v)` call is queued and becomes visible only in
  the next render.  A handler is therefore a function of the snapshot `s` that
  transforms a *pending* state `p`: reads go to `s`, writes go to `p`.
  `setX(prev => ...)` reads the pending value instead.
* JavaScript strings are sequences of UTF-16 code units, `List Nat`;
  `str[i]` is `str[i]?` (`undefined` is `none`).
* Lengths, counters, `wpm` and `accuracy` are non-negative integers (`Nat`);
  `xp` is an integer (`Int`) because `addXp` accepts any amount.  Integer
  arithmetic is exact: every integer involved is far below `2^53`.
* The two quotients whose rounding is observable, the accuracy and the
  words-per-minute figure, are evaluated in IEEE-754 binary64 as in the source:
  `Dbl.round` is round-to-nearest, ties-to-even, to a 53-bit significand
  (exponent range unbounded: no value here comes near overflow or underflow).
* `Math.pow(1.2, lvl - 1)` is implementation-approximated in ECMAScript; the
  curve `xpForLevel` is modelled by the exact value `floor(100 * (6/5)^(lvl-1))`.
-/

namespace TypeFlow

/-! ## Rank table -/

/-- One entry of the `ranks` table. -/
structure Rank where
  name : String
  minLevel : Nat
  color : String
  icon : String
deriving DecidableEq, Repr

/-- The `ranks` table, in source order. -/
def ranks : List Rank :=
  [ ⟨"Novice", 1, "#6B7280", "○"⟩,
    ⟨"Apprentice", 5, "#10B981", "◐"⟩,
    ⟨"Typist", 10, "#3B82F6", "●"⟩,
    ⟨"Swift", 20, "#8B5CF6", "◆"⟩,
    ⟨"Expert", 35, "#F59E0B", "★"⟩,
    ⟨"Master", 50, "#EF4444", "✦"⟩,
    ⟨"Grandmaster", 75, "#EC4899", "❖"⟩,
    ⟨"Legend", 100, "#FFD700", "✧"⟩ ]

/-- The first table entry, `ranks[0]`. -/
def ranks0 : Rank := ⟨"Novice", 1, "#6B7280", "○"⟩

/-- The loop of `getCurrentRank` over an arbitrary table: start from `init`
and overwrite with every entry whose `minLevel` is reached. -/
def currentRankLoop (level : Nat) (init : Rank) (table : List Rank) : Rank :=
  table.foldl (fun currentRank rank => if level ≥ rank.minLevel then rank else currentRank) init

/-- Source `getCurrentRank`, as a function of the `level` it closes over. -/
def getCurrentRank (level : Nat) : Rank :=
  currentRankLoop level ranks0 ranks

/-- The loop of `getNextRank` over an arbitrary table: return at the first
entry whose `minLevel` is above `level`, `null` when the loop falls through. -/
def nextRankLoop (level : Nat) : List Rank → Option Rank
  | [] => none
  | rank :: rest => if level < rank.minLevel then some rank else nextRankLoop level rest

/-- Source `getNextRank`, as a function of the `level` it closes over. -/
def getNextRank (level : Nat) : Option Rank :=
  nextRankLoop level ranks

/-! ## XP curve -/

/-- Source `xpForLevel`: `Math.floor(100 * Math.pow(1.2, lvl - 1))`, with the
power taken exactly (`1.2 = 6/5`).  For `lvl = 0` the exponent is `-1`. -/
def xpForLevel (lvl : Nat) : Nat :=
  if 1 ≤ lvl then 100 * 6 ^ (lvl - 1) / 5 ^ (lvl - 1)
  else 100 * 5 ^ (1 - lvl) / 6 ^ (1 - lvl)

/-- Source `totalXpForLevel`: `for (i = 1; i < lvl; i++) total += xpForLevel(i)`. -/
def totalXpForLevel (lvl : Nat) : Nat :=
  (List.range' 1 (lvl - 1)).foldl (fun total i => total + xpForLevel i) 0

/-- Sum of `xpForLevel l` over the `n` consecutive levels `start, ..., start + n - 1`. -/
def sumXpFrom (start : Nat) : Nat → Nat
  | 0 => 0
  | n + 1 => xpForLevel start + sumXpFrom (start + 1) n

/-- The `while` loop of `addXp` on the local variables `(newXp, newLevel)`,
unrolled at most `fuel` times:
`while (newXp >= xpForLevel(newLevel)) { newXp -= xpForLevel(newLevel); newLevel++ }`. -/
def addXpLoopAux : Nat → Int → Nat → Int × Nat
  | 0, newXp, newLevel => (newXp, newLevel)
  | fuel + 1, newXp, newLevel =>
    if (xpForLevel newLevel : Int) ≤ newXp then
      addXpLoopAux fuel (newXp - xpForLevel newLevel) (newLevel + 1)
    else (newXp, newLevel)

/-- The `while` loop of `addXp`.  Every iteration subtracts at least 1 from a
running total that is at least 1, so `newXp` iterations are always enough:
`addXpLoop_eq` below shows that this function satisfies the loop equation. -/
def addXpLoop (newXp : Int) (newLevel : Nat) : Int × Nat :=
  addXpLoopAux newXp.toNat newXp newLevel

/-! ## IEEE-754 binary64 values -/

/-- A finite non-negative double, given by its exact value `num / den`
(`den > 0`, the fraction need not be in lowest terms). -/
structure Dbl where
  num : Nat
  den : Nat
deriving DecidableEq, Repr

/-- Nearest integer to `n / d`, ties to the even neighbour. -/
def roundHalfEven (n d : Nat) : Nat :=
  let q := n / d
  let r := n % d
  if 2 * r < d then q
  else if d < 2 * r then q + 1
  else if q % 2 = 0 then q else q + 1

/-- Helper of `ilog2`: halve until below 2, at most `fuel` times. -/
def ilog2Aux : Nat → Nat → Nat
  | 0, _ => 0
  | fuel + 1, n => if n < 2 then 0 else ilog2Aux fuel (n / 2) + 1

/-- Binary logarithm rounded down: the position of the leading bit of `n`
(`n` halvings are always enough). -/
def ilog2 (n : Nat) : Nat := ilog2Aux n n

/-- The double nearest to the exact quotient `n / d` (`d > 0`), ties to even.
With `k = ilog2 n` and `j = ilog2 d` the scaled quotient
`n * 2^(53+j) / (d * 2^k)` lies in `(2^52, 2^54)`; it is halved when it is at
least `2^53`, so that the rounded integer is a 53-bit significand. -/
def Dbl.round (n d : Nat) : Dbl :=
  if n = 0 then ⟨0, 1⟩
  else
    let k := ilog2 n
    let j := ilog2 d
    let N := n * 2 ^ (53 + j)
    let D := d * 2 ^ k
    if N < 2 ^ 53 * D then ⟨roundHalfEven N D * 2 ^ k, 2 ^ (53 + j)⟩
    else ⟨roundHalfEven N (2 * D) * 2 ^ (k + 1), 2 ^ (53 + j)⟩

/-- The exact value of a double. -/
def Dbl.val (x : Dbl) : ℚ := (x.num : ℚ) / (x.den : ℚ)

/-- An integer as a double (exact below `2^53`). -/
def Dbl.ofNat (n : Nat) : Dbl := ⟨n, 1⟩

/-- Binary64 division `a / b` (`b` non-zero). -/
def Dbl.div (a b : Dbl) : Dbl := Dbl.round (a.num * b.den) (a.den * b.num)

/-- Binary64 multiplication `a * b`. -/
def Dbl.mul (a b : Dbl) : Dbl := Dbl.round (a.num * b.num) (a.den * b.den)

/-- `x > 0` on doubles. -/
def Dbl.isPos (x : Dbl) : Bool := decide (0 < x.num)

/-- `Math.round` on a non-negative double: the nearest integer, ties towards
`+∞`, that is `floor(x + 1/2)`. -/
def mathRound (x : Dbl) : Nat := (2 * x.num + x.den) / (2 * x.den)

/-! ## Strings -/

/-- A JavaScript string: its sequence of UTF-16 code units. -/
abbrev JSString := List Nat

/-- The code units matched by `\s` and stripped by `trim`: ECMAScript
`WhiteSpace` and `LineTerminator`. -/
def isWhiteSpace (c : Nat) : Bool :=
  c == 0x09 || c == 0x0A || c == 0x0B || c == 0x0C || c == 0x0D || c == 0x20 ||
  c == 0xA0 || c == 0x1680 || (0x2000 ≤ c && c ≤ 0x200A) || c == 0x2028 ||
  c == 0x2029 || c == 0x202F || c == 0x205F || c == 0x3000 || c == 0xFEFF

/-- `String.prototype.trim`: drop leading and trailing white space. -/
def jsTrim (str : JSString) : JSString :=
  ((str.dropWhile isWhiteSpace).reverse.dropWhile isWhiteSpace).reverse

/-- `str.split(/\s+/)` scanning from the left: `cur` is the piece being read
(reversed), `inRun` tells that the previous code unit belonged to a separator
already cut.  The piece that is open at the end of the string is always
emitted, so the result is never empty. -/
def splitAux (cur : JSString) (inRun : Bool) : JSString → List JSString
  | [] => [cur.reverse]
  | c :: rest =>
    if isWhiteSpace c then
      if inRun then splitAux [] true rest
      else cur.reverse :: splitAux [] true rest
    else splitAux (c :: cur) false rest

/-- `str.split(/\s+/)`: the pieces between maximal runs of white space,
empty leading and trailing pieces included; `"".split(/\s+/)` is `[""]`. -/
def splitWhitespace (str : JSString) : List JSString := splitAux [] false str

/-! ## Component state -/

/-- The identifiers of `achievementDefs`. -/
inductive AchievementId where
  | first_test | speed_demon | perfectionist | streak_3 | streak_7 | streak_30
  | level_10 | tests_50 | wpm_80 | wpm_100
deriving DecidableEq, Repr

/-- The table `achievementDefs`, in source order, as `(id, xp)`. -/
def achievementDefs : List (AchievementId × Nat) :=
  [ (.first_test, 50), (.speed_demon, 100), (.perfectionist, 150), (.streak_3, 75),
    (.streak_7, 200), (.streak_30, 500), (.level_10, 100), (.tests_50, 250),
    (.wpm_80, 300), (.wpm_100, 500) ]

/-- One point of `history`; `date` is the decimal string of a position. -/
structure HistoryEntry where
  date : Nat
  wpm : Nat
  accuracy : Nat
deriving DecidableEq, Repr

/-- The `dailyProgress` object. -/
structure DailyProgress where
  testsWithWpm : Nat
  testsWithAccuracy : Nat
  totalChars : Nat
  perfectTests : Nat
deriving DecidableEq, Repr

/-- The state variables of the component that the engine reads or writes. -/
structure State where
  text : JSString
  userInput : JSString
  isTyping : Bool
  isFinished : Bool
  startTime : Option Nat
  wpm : Nat
  accuracy : Nat
  errors : Nat
  timeElapsed : Dbl
  level : Nat
  xp : Int
  totalTests : Nat
  bestWpm : Nat
  achievements : List AchievementId
  history : List HistoryEntry
  dailyProgress : DailyProgress

/-- The seven points `history` starts with. -/
def initialHistory : List HistoryEntry :=
  [⟨1, 25, 85⟩, ⟨2, 28, 87⟩, ⟨3, 32, 88⟩, ⟨4, 35, 90⟩, ⟨5, 38, 89⟩, ⟨6, 42, 92⟩, ⟨7, 45, 93⟩]

/-- The state of the first render (the `useState` initial values). -/
def initialState : State :=
  { text := [], userInput := [], isTyping := false, isFinished := false, startTime := none,
    wpm := 0, accuracy := 100, errors := 0, timeElapsed := ⟨0, 1⟩, level := 1, xp := 0,
    totalTests := 0, bestWpm := 0, achievements := [], history := initialHistory,
    dailyProgress := ⟨0, 0, 0, 0⟩ }

/-- Source `startTest`, with the text drawn by `Math.random` as a parameter. -/
def startTest (randomText : JSString) (p : State) : State :=
  { p with text := randomText, userInput := [], isTyping := false, isFinished := false,
           startTime := none, wpm := 0, accuracy := 100, errors := 0, timeElapsed := ⟨0, 1⟩ }

/-! ## Progression -/

/-- Source `addXp(amount)` in the render with snapshot `s`: the loop starts from
the snapshot `xp` and `level`, and `setXp`/`setLevel` overwrite the pending ones. -/
def addXp (s : State) (amount : Int) (p : State) : State :=
  let r := addXpLoop (s.xp + amount) s.level
  { p with xp := r.1, level := r.2 }

/-- One `if (!achievements.includes(id) && cond) { newAchievements.push(id); addXp(reward) }`
block of `checkAchievements`, acting on `(newAchievements, pending state)`. -/
def unlockStep (s : State) (id : AchievementId) (cond : Bool) (reward : Int)
    (acc : List AchievementId × State) : List AchievementId × State :=
  if !s.achievements.contains id && cond then (acc.1 ++ [id], addXp s reward acc.2)
  else acc

/-- Source `checkAchievements(newWpm, newAccuracy, newTests)`. -/
def checkAchievements (s : State) (newWpm newAccuracy newTests : Nat) (p : State) : State :=
  let a0 : List AchievementId × State := (s.achievements, p)
  let a1 := unlockStep s .first_test (decide (newTests ≥ 1)) 50 a0
  let a2 := unlockStep s .speed_demon (decide (newWpm ≥ 60)) 100 a1
  let a3 := unlockStep s .perfectionist (decide (newAccuracy = 100)) 150 a2
  let a4 := unlockStep s .wpm_80 (decide (newWpm ≥ 80)) 300 a3
  let a5 := unlockStep s .wpm_100 (decide (newWpm ≥ 100)) 500 a4
  let a6 := unlockStep s .level_10 (decide (s.level ≥ 10)) 100 a5
  let a7 := unlockStep s .tests_50 (decide (newTests ≥ 50)) 250 a6
  { a7.2 with achievements := a7.1 }

/-- The XP reward of a session: `baseXp + wpmBonus + accuracyBonus`. -/
def totalXpGain (finalWpm finalAccuracy : Nat) : Nat :=
  20 + finalWpm / 10 * 5 + finalAccuracy / 10 * 3

/-- Source `finishTest(finalAccuracy)` in the render with snapshot `s`. -/
def finishTest (s : State) (finalAccuracy : Nat) (p : State) : State :=
  let p1 := { p with isFinished := true, isTyping := false }
  let finalWpm := s.wpm
  let newTests := s.totalTests + 1
  let p2 := { p1 with totalTests := newTests }
  let p3 := if finalWpm > s.bestWpm then { p2 with bestWpm := finalWpm } else p2
  let p4 := { p3 with history := p3.history ++ [⟨p3.history.length + 1, finalWpm, finalAccuracy⟩] }
  let p5 := addXp s (totalXpGain finalWpm finalAccuracy) p4
  let p6 := { p5 with dailyProgress :=
    { testsWithWpm := p5.dailyProgress.testsWithWpm + (if finalWpm ≥ 50 then 1 else 0),
      testsWithAccuracy := p5.dailyProgress.testsWithAccuracy + (if finalAccuracy ≥ 95 then 1 else 0),
      totalChars := p5.dailyProgress.totalChars + s.text.length,
      perfectTests := p5.dailyProgress.perfectTests + (if s.errors = 0 then 1 else 0) } }
  checkAchievements s finalWpm finalAccuracy newTests p6

/-! ## Session metrics -/

/-- The error loop of `handleInput`:
`for (i = 0; i < value.length; i++) if (value[i] !== text[i]) errorCount++`. -/
def countErrors (text value : JSString) : Nat :=
  (List.range value.length).foldl
    (fun errorCount i => if value[i]? ≠ text[i]? then errorCount + 1 else errorCount) 0

/-- The accuracy expression of `handleInput`:
`len > 0 ? Math.round(((len - errorCount) / len) * 100) : 100`, in binary64. -/
def computeAccuracy (len errorCount : Nat) : Nat :=
  if len > 0 then
    mathRound (Dbl.mul (Dbl.div (Dbl.ofNat (len - errorCount)) (Dbl.ofNat len)) (Dbl.ofNat 100))
  else 100

/-- Source `handleInput(e)` in the render with snapshot `s`; `value` is
`e.target.value` and `now` is `Date.now()`. -/
def handleInput (s : State) (value : JSString) (now : Nat) : State :=
  let p1 := if !s.isTyping && value.length > 0 then
      { s with isTyping := true, startTime := some now } else s
  let p2 := { p1 with userInput := value }
  let errorCount := countErrors s.text value
  let p3 := { p2 with errors := errorCount }
  let acc := computeAccuracy value.length errorCount
  let p4 := { p3 with accuracy := acc }
  if value.length ≥ s.text.length then finishTest s acc p4 else p4

/-- The word count of the timer callback: `userInput.trim().split(/\s+/).length`. -/
def countWords (userInput : JSString) : Nat :=
  (splitWhitespace (jsTrim userInput)).length

/-- The interval callback installed by the timer effect of the render with
snapshot `s`, run when `Date.now() - startTime` is `elapsedMs` milliseconds
(non-negative).  The effect installs it only if `isTyping && startTime`. -/
def timerTick (s : State) (elapsedMs : Nat) : State :=
  match s.startTime with
  | none => s
  | some t =>
    if s.isTyping && t != 0 then
      let elapsed := Dbl.div (Dbl.ofNat elapsedMs) (Dbl.ofNat 1000)
      let p1 := { s with timeElapsed := elapsed }
      let words := countWords s.userInput
      let minutes := Dbl.div elapsed (Dbl.ofNat 60)
      if minutes.isPos then
        { p1 with wpm := mathRound (Dbl.div (Dbl.ofNat words) minutes) }
      else p1
    else s

/-! ## Reference quantities and sample data -/

/-- The quotient `n / d` rounded to the nearest integer, halves up:
`floor(n / d + 1/2)`. -/
def roundHalfUp (n d : Nat) : Nat := (2 * n + d) / (2 * d)

/-- The accuracy as the specification words it:
`round(100 * (len - errorCount) / len)` when `len > 0`, else 100. -/
def exactAccuracy (len errorCount : Nat) : Nat :=
  if len > 0 then roundHalfUp (100 * (len - errorCount)) len else 100

/-- `100 * (len - errorCount) / len` lies exactly half-way between two integers. -/
def isHalfway (len errorCount : Nat) : Prop :=
  (2 * (100 * (len - errorCount)) + len) % (2 * len) = 0

instance (len errorCount : Nat) : Decidable (isHalfway len errorCount) := by
  unfold isHalfway; infer_instance

/-- The code units of a string of ASCII characters. -/
def ofAscii (str : String) : JSString := str.toList.map Char.toNat

/-- The second `beginner` sample text (40 characters). -/
def packText : JSString := ofAscii "Pack my box with five dozen liquor jugs."

/-- The first 23 characters of `packText` typed correctly, then 17 wrong ones. -/
def packTyped : JSString := ofAscii "Pack my box with five dxxxxxxxxxxxxxxxxx"

/-- The target text `cat`. -/
def catText : JSString := ofAscii "cat"

/-- The word count as the specification words it: the number of non-empty
tokens obtained by splitting the buffer on runs of white space. -/
def wordCountSpec (buffer : JSString) : Nat :=
  ((splitWhitespace buffer).filter (fun token => !token.isEmpty)).length

/-- Cumulative XP: `xp` plus `xpForLevel l` summed over the levels below the
current one (`totalXpForLevel(level) + xp`). -/
def cumulativeXp (s : State) : Int := s.xp + totalXpForLevel s.level

/-- The `xp` reward that `achievementDefs` lists for an id. -/
def rewardOf (id : AchievementId) : Nat :=
  match achievementDefs.find? (fun d => d.1 == id) with
  | some d => d.2
  | none => 0

/-- The sum of the rewards of the ids of `after` that are not in `before`. -/
def newRewards (before after : List AchievementId) : Nat :=
  ((after.filter (fun id => !before.contains id)).map rewardOf).sum

/-- A fresh session on the target text `cat`, in the first render's progress. -/
def catSession : State := startTest catText initialState

/-- The session `catSession` after the inputs `c` and `ca`. -/
def catSessionTwoTyped : State :=
  handleInput (handleInput catSession (ofAscii "c") 1000) (ofAscii "ca") 1200

/-- A player at level 9 with 400 XP (29 XP short of level 10) who already
holds `first_test` and `perfectionist`, in a fresh session on `cat`. -/
def nearLevelTen : State :=
  { startTest catText initialState with
    level := 9, xp := 400, totalTests := 30, achievements := [.first_test, .perfectionist] }

/-- The session `catSession` after a single space was typed: the session is
Active and the buffer consists of white space only. -/
def blankSession : State := handleInput catSession (ofAscii " ") 1000

/-! ## Events -/

/-- What can happen to the component: a start button is pressed (with the text
drawn for the session), the text input fires `onChange`, or the interval
callback runs. -/
inductive Event where
  | start (randomText : JSString)
  | input (value : JSString) (now : Nat)
  | tick (elapsedMs : Nat)

/-- One event in the render with state `s`.  The text input is rendered with
`onChange={handleInput}` and `disabled={isFinished}`: a disabled input fires no
change event, so `handleInput` runs only while `isFinished` is false. -/
def step (s : State) : Event → State
  | .start randomText => startTest randomText s
  | .input value now => if s.isFinished then s else handleInput s value now
  | .tick elapsedMs => timerTick s elapsedMs

/-- The state after a sequence of events, each handled in the render that
follows the previous one. -/
def run (s : State) (events : List Event) : State := events.foldl step s

/-- The pending state after a session that ends with `wpm = finalWpm` and
accuracy `finalAccuracy`, completed from the progress `p`. -/
def completeWith (p : State) (finalWpm finalAccuracy : Nat) : State :=
  finishTest { p with wpm := finalWpm } finalAccuracy { p with wpm := finalWpm }

/-- The ids that `checkAchievements` can push, in source order. -/
def grantable : List AchievementId :=
  [.first_test, .speed_demon, .perfectionist, .wpm_80, .wpm_100, .level_10, .tests_50]

/-! ## The level-up loop -/

theorem xpForLevel_pos (lvl : Nat) : 0 < xpForLevel lvl := by
  unfold xpForLevel
  split
  · have h5 : 0 < 5 ^ (lvl - 1) := by positivity
    have h6 : 5 ^ (lvl - 1) ≤ 6 ^ (lvl - 1) := Nat.pow_le_pow_left (by norm_num) _
    apply Nat.div_pos _ h5
    nlinarith
  · have h0 : lvl = 0 := by omega
    subst h0
    decide

/-- Unrolling the loop more often than the running total allows changes nothing. -/
theorem addXpLoopAux_fuel (f : Nat) : ∀ (g : Nat) (x : Int) (l : Nat),
    x.toNat ≤ f → x.toNat ≤ g → addXpLoopAux f x l = addXpLoopAux g x l := by
  induction f with
  | zero =>
    intro g x l hf _
    have hpos := xpForLevel_pos l
    cases g with
    | zero => rfl
    | succ g =>
      have hx : ¬ ((xpForLevel l : Int) ≤ x) := by omega
      simp [addXpLoopAux, hx]
  | succ f ih =>
    intro g x l hf hg
    have hpos := xpForLevel_pos l
    by_cases hx : (xpForLevel l : Int) ≤ x
    · cases g with
      | zero => omega
      | succ g =>
        simp only [addXpLoopAux, hx, if_true]
        exact ih g _ _ (by omega) (by omega)
    · cases g with
      | zero => simp [addXpLoopAux, hx]
      | succ g => simp [addXpLoopAux, hx]

/-- The loop equation of `while (newXp >= xpForLevel(newLevel)) { ... }`. -/
theorem addXpLoop_eq (x : Int) (l : Nat) :
    addXpLoop x l =
      if (xpForLevel l : Int) ≤ x then addXpLoop (x - xpForLevel l) (l + 1) else (x, l) := by
  have hpos := xpForLevel_pos l
  unfold addXpLoop
  by_cases hx : (xpForLevel l : Int) ≤ x
  · simp only [hx, if_true]
    obtain ⟨n, hn⟩ : ∃ n, x.toNat = n + 1 := ⟨x.toNat - 1, by omega⟩
    rw [hn]
    simp only [addXpLoopAux, hx, if_true]
    exact addXpLoopAux_fuel n _ _ _ (by omega) (le_refl _)
  · simp only [hx, if_false]
    cases x.toNat with
    | zero => rfl
    | succ n => simp [addXpLoopAux, hx]

theorem sumXpFrom_add (l a b : Nat) :
    sumXpFrom l (a + b) = sumXpFrom l a + sumXpFrom (l + a) b := by
  induction a generalizing l with
  | zero => simp [sumXpFrom]
  | succ a ih =>
    have h : a + 1 + b = (a + b) + 1 := by omega
    rw [h, sumXpFrom, sumXpFrom, ih (l + 1)]
    have h2 : l + 1 + a = l + (a + 1) := by omega
    rw [h2]; omega

/-- What the loop computes from a non-negative running total: it stops below
the threshold of the level reached and has subtracted exactly the thresholds
of the levels passed. -/
theorem addXpLoop_spec (n : Nat) : ∀ (x : Int) (l : Nat), 0 ≤ x → x.toNat ≤ n →
    l ≤ (addXpLoop x l).2 ∧ 0 ≤ (addXpLoop x l).1 ∧
    (addXpLoop x l).1 < xpForLevel (addXpLoop x l).2 ∧
    x = (addXpLoop x l).1 + sumXpFrom l ((addXpLoop x l).2 - l) := by
  induction n with
  | zero =>
    intro x l h0 hn
    have hpos := xpForLevel_pos l
    have hx : ¬ ((xpForLevel l : Int) ≤ x) := by omega
    rw [addXpLoop_eq]
    simp only [hx, if_false, Nat.sub_self, sumXpFrom]
    omega
  | succ n ih =>
    intro x l h0 hn
    have hpos := xpForLevel_pos l
    by_cases hx : (xpForLevel l : Int) ≤ x
    · obtain ⟨h1, h2, h3, h4⟩ := ih (x - xpForLevel l) (l + 1) (by omega) (by omega)
      rw [addXpLoop_eq]
      simp only [hx, if_true]
      refine ⟨by omega, h2, h3, ?_⟩
      have hs : (addXpLoop (x - xpForLevel l) (l + 1)).2 - l
          = 1 + ((addXpLoop (x - xpForLevel l) (l + 1)).2 - (l + 1)) := by omega
      rw [hs, sumXpFrom_add]
      simp only [sumXpFrom]
      push_cast
      omega
    · rw [addXpLoop_eq]
      simp only [hx, if_false, Nat.sub_self, sumXpFrom]
      omega

theorem foldl_xp_range' (n : Nat) : ∀ (a k : Nat),
    (List.range' a n).foldl (fun total i => total + xpForLevel i) k = k + sumXpFrom a n := by
  induction n with
  | zero => intro a k; simp [sumXpFrom]
  | succ n ih =>
    intro a k
    simp only [List.range'_succ, List.foldl_cons, ih, sumXpFrom]
    omega

theorem totalXpForLevel_eq (lvl : Nat) : totalXpForLevel lvl = sumXpFrom 1 (lvl - 1) := by
  unfold totalXpForLevel
  rw [foldl_xp_range']
  omega

/-- A single `addXp` conserves cumulative XP: from `level ≥ 1` and a
non-negative running total it grows by exactly `amount`. -/
theorem addXp_cumulativeXp (s p : State) (amount : Int)
    (hl : 1 ≤ s.level) (h0 : 0 ≤ s.xp + amount) :
    cumulativeXp (addXp s amount p) = cumulativeXp s + amount := by
  obtain ⟨h1, _, _, h4⟩ :=
    addXpLoop_spec (s.xp + amount).toNat (s.xp + amount) s.level h0 (le_refl _)
  simp only [cumulativeXp, addXp, totalXpForLevel_eq]
  have e : (addXpLoop (s.xp + amount) s.level).2 - 1
      = (s.level - 1) + ((addXpLoop (s.xp + amount) s.level).2 - s.level) := by omega
  have e1 : 1 + (s.level - 1) = s.level := by omega
  rw [e, sumXpFrom_add, e1]
  push_cast
  omega

/-! ## C2 -/

/-- An `if` block of `checkAchievements` writes `xp` and `level` only. -/
theorem unlockStep_proj {α : Type} (f : State → α)
    (hf : ∀ (q : State) (x : Int) (l : Nat), f { q with xp := x, level := l } = f q)
    (s : State) (id : AchievementId) (cond : Bool) (reward : Int)
    (acc : List AchievementId × State) :
    f (unlockStep s id cond reward acc).2 = f acc.2 := by
  unfold unlockStep
  split
  · exact hf _ _ _
  · rfl

/-- `checkAchievements` writes `xp`, `level` and `achievements` only. -/
theorem checkAchievements_proj {α : Type} (f : State → α)
    (hf : ∀ (q : State) (x : Int) (l : Nat), f { q with xp := x, level := l } = f q)
    (hg : ∀ (q : State) (u : List AchievementId), f { q with achievements := u } = f q)
    (s : State) (w a t : Nat) (p : State) :
    f (checkAchievements s w a t p) = f p := by
  unfold checkAchievements
  simp only [hg, unlockStep_proj f hf]

theorem finishTest_errors (s : State) (acc : Nat) (p : State) :
    (finishTest s acc p).errors = p.errors := by
  unfold finishTest
  simp only [checkAchievements_proj State.errors (fun _ _ _ => rfl) (fun _ _ => rfl)]
  split <;> rfl

theorem finishTest_accuracy (s : State) (acc : Nat) (p : State) :
    (finishTest s acc p).accuracy = p.accuracy := by
  unfold finishTest
  simp only [checkAchievements_proj State.accuracy (fun _ _ _ => rfl) (fun _ _ => rfl)]
  split <;> rfl

theorem handleInput_errors (s : State) (value : JSString) (now : Nat) :
    (handleInput s value now).errors = countErrors s.text value := by
  unfold handleInput
  simp only []
  split
  · rw [finishTest_errors]
  · rfl

theorem handleInput_accuracy (s : State) (value : JSString) (now : Nat) :
    (handleInput s value now).accuracy
      = computeAccuracy value.length (countErrors s.text value) := by
  unfold handleInput
  simp only []
  split
  · rw [finishTest_accuracy]
  · rfl

/-! ## The error count -/

theorem foldl_count (P : Nat → Prop) [DecidablePred P] (l : List Nat) (k : Nat) :
    l.foldl (fun errorCount i => if P i then errorCount + 1 else errorCount) k
      = k + (l.filter (fun i => decide (P i))).length := by
  induction l generalizing k with
  | nil => simp
  | cons i l ih =>
    simp only [List.foldl_cons, ih, List.filter_cons]
    by_cases h : P i
    · simp [h]; omega
    · simp [h]

theorem countErrors_eq_filter (text value : JSString) :
    countErrors text value
      = ((List.range value.length).filter (fun i => decide (value[i]? ≠ text[i]?))).length := by
  unfold countErrors
  rw [foldl_count (fun i => value[i]? ≠ text[i]?)]
  simp

/-- Positions below `n` that differ, split at the end of the target text. -/
theorem mismatch_split (text value : JSString) (n : Nat) (hn : n ≤ value.length) :
    ((List.range n).filter (fun i => decide (value[i]? ≠ text[i]?))).length
      = ((List.range (min n text.length)).filter
          (fun i => decide (value[i]? ≠ text[i]?))).length + (n - text.length) := by
  induction n with
  | zero => simp
  | succ n ih =>
    have ih := ih (by omega)
    rw [List.range_succ, List.filter_append, List.length_append, ih]
    by_cases h : n < text.length
    · have e1 : min (n + 1) text.length = min n text.length + 1 := by omega
      have e2 : min n text.length = n := by omega
      rw [e1, List.range_succ, List.filter_append, List.length_append, e2]
      omega
    · have e1 : min (n + 1) text.length = min n text.length := by omega
      have hv : n < value.length := by omega
      have ht : text.length ≤ n := by omega
      have hne : value[n]? ≠ text[n]? := by
        rw [List.getElem?_eq_getElem hv, List.getElem?_eq_none ht]
        simp
      rw [e1]
      simp [hne]
      omega

/-! ## C3 -/

/-- C3: the `errorCount` computed by `handleInput` is the number of positions
`i < min(len(value), len(text))` with `value[i] ≠ text[i]`, plus
`max(0, len(value) - len(text))`: every typed position beyond the end of the
target text counts as exactly one error (the out-of-range read is `undefined`,
not a failure). -/
theorem handleInput_errorCount (s : State) (value : JSString) (now : Nat) :
    (handleInput s value now).errors
      = ((List.range (min value.length s.text.length)).filter
          (fun i => decide (value[i]? ≠ s.text[i]?))).length
        + (value.length - s.text.length) := by
  rw [handleInput_errors, countErrors_eq_filter]
  exact mismatch_split s.text value value.length (le_refl _)

/-! ## Rounding to binary64 -/

theorem ilog2Aux_bounds (f : Nat) : ∀ (n : Nat), 1 ≤ n → n ≤ f →
    2 ^ ilog2Aux f n ≤ n ∧ n < 2 ^ (ilog2Aux f n + 1) := by
  induction f with
  | zero => intro n h1 h2; omega
  | succ f ih =>
    intro n h1 h2
    by_cases h : n < 2
    · have hn : n = 1 := by omega
      subst hn
      simp [ilog2Aux]
    · obtain ⟨ih1, ih2⟩ := ih (n / 2) (by omega) (by omega)
      simp only [ilog2Aux, h, if_false]
      rw [pow_succ, pow_succ]
      rw [pow_succ] at ih2
      constructor <;> omega

theorem ilog2_bounds (n : Nat) (h : 1 ≤ n) : 2 ^ ilog2 n ≤ n ∧ n < 2 ^ (ilog2 n + 1) :=
  ilog2Aux_bounds n n h (le_refl _)

/-- The integer chosen by `roundHalfEven` is within one half of `n / d`. -/
theorem roundHalfEven_bounds (n d : Nat) (hd : 0 < d) :
    2 * (d * roundHalfEven n d) ≤ 2 * n + d ∧ 2 * n ≤ 2 * (d * roundHalfEven n d) + d := by
  have h1 := Nat.div_add_mod n d
  have h2 := Nat.mod_lt n hd
  unfold roundHalfEven
  simp only []
  generalize hq : n / d = q at *
  generalize n % d = r at *
  have e : d * (q + 1) = d * q + d := by ring
  split
  · constructor <;> omega
  · split
    · rw [e]; constructor <;> omega
    · split
      · constructor <;> omega
      · rw [e]; constructor <;> omega

/-- Rounding to binary64 has relative error at most `2^-53`. -/
theorem Dbl.round_error (n d : Nat) (hn : 0 < n) (hd : 0 < d) :
    0 < (Dbl.round n d).den ∧
    |(Dbl.round n d).val - (n : ℚ) / d| ≤ (n : ℚ) / d / 2 ^ 53 := by
  obtain ⟨hk1, hk2⟩ := ilog2_bounds n hn
  obtain ⟨hj1, hj2⟩ := ilog2_bounds d hd
  have hn0 : n ≠ 0 := by omega
  unfold Dbl.round
  simp only [hn0, if_false]
  generalize ilog2 n = k at *
  generalize ilog2 d = j at *
  have hnq : (0 : ℚ) < n := by exact_mod_cast hn
  have hdq : (0 : ℚ) < d := by exact_mod_cast hd
  have hk1q : (2 : ℚ) ^ k ≤ n := by exact_mod_cast hk1
  have hj2q : (d : ℚ) ≤ 2 * 2 ^ j := by
    have : d ≤ 2 * 2 ^ j := by rw [pow_succ] at hj2; omega
    exact_mod_cast this
  have hD : 0 < d * 2 ^ k := by positivity
  have hD2 : 0 < 2 * (d * 2 ^ k) := by positivity
  split
  · rename_i hlt
    obtain ⟨b1, b2⟩ := roundHalfEven_bounds (n * 2 ^ (53 + j)) (d * 2 ^ k) hD
    generalize roundHalfEven (n * 2 ^ (53 + j)) (d * 2 ^ k) = m at *
    refine ⟨by positivity, ?_⟩
    have b1q : (2 : ℚ) * (d * 2 ^ k * m) ≤ 2 * (n * 2 ^ (53 + j)) + d * 2 ^ k := by
      exact_mod_cast b1
    have b2q : (2 : ℚ) * (n * 2 ^ (53 + j)) ≤ 2 * (d * 2 ^ k * m) + d * 2 ^ k := by
      exact_mod_cast b2
    simp only [Dbl.val]
    push_cast
    rw [pow_add] at b1q b2q ⊢
    generalize hP : (2 : ℚ) ^ 53 = P at *
    generalize hK : (2 : ℚ) ^ k = K at *
    generalize hJ : (2 : ℚ) ^ j = J at *
    have hPpos : 0 < P := by rw [← hP]; positivity
    have hKpos : 0 < K := by rw [← hK]; positivity
    have hJpos : 0 < J := by rw [← hJ]; positivity
    have hdK : (d : ℚ) * K ≤ 2 * (n * J) := by
      have := mul_le_mul hj2q hk1q (le_of_lt hKpos) (by positivity)
      linarith
    have e1 : (n : ℚ) / d + n / d / P = n * (P + 1) / (d * P) := by field_simp; ring
    have e2 : (n : ℚ) / d - n / d / P = n * (P - 1) / (d * P) := by field_simp; ring
    have up : (m : ℚ) * K / (P * J) ≤ n * (P + 1) / (d * P) := by
      rw [div_le_div_iff₀ (by positivity) (by positivity)]
      linarith [mul_le_mul_of_nonneg_right b1q (le_of_lt hPpos),
        mul_le_mul_of_nonneg_right hdK (le_of_lt hPpos)]
    have lo : (n : ℚ) * (P - 1) / (d * P) ≤ m * K / (P * J) := by
      rw [div_le_div_iff₀ (by positivity) (by positivity)]
      linarith [mul_le_mul_of_nonneg_right b2q (le_of_lt hPpos),
        mul_le_mul_of_nonneg_right hdK (le_of_lt hPpos)]
    rw [abs_le]
    constructor <;> linarith
  · rename_i hge
    obtain ⟨b1, b2⟩ := roundHalfEven_bounds (n * 2 ^ (53 + j)) (2 * (d * 2 ^ k)) hD2
    generalize roundHalfEven (n * 2 ^ (53 + j)) (2 * (d * 2 ^ k)) = m at *
    refine ⟨by positivity, ?_⟩
    have b1q : (2 : ℚ) * (2 * (d * 2 ^ k) * m) ≤ 2 * (n * 2 ^ (53 + j)) + 2 * (d * 2 ^ k) := by
      exact_mod_cast b1
    have b2q : (2 : ℚ) * (n * 2 ^ (53 + j)) ≤ 2 * (2 * (d * 2 ^ k) * m) + 2 * (d * 2 ^ k) := by
      exact_mod_cast b2
    have hgeq : (2 : ℚ) ^ 53 * (d * 2 ^ k) ≤ n * 2 ^ (53 + j) := by
      have : 2 ^ 53 * (d * 2 ^ k) ≤ n * 2 ^ (53 + j) := by omega
      exact_mod_cast this
    simp only [Dbl.val]
    push_cast
    rw [show (2 : ℚ) ^ (k + 1) = 2 ^ k * 2 from pow_succ 2 k]
    rw [pow_add] at b1q b2q hgeq ⊢
    generalize hP : (2 : ℚ) ^ 53 = P at *
    generalize hK : (2 : ℚ) ^ k = K at *
    generalize hJ : (2 : ℚ) ^ j = J at *
    have hPpos : 0 < P := by rw [← hP]; positivity
    have hKpos : 0 < K := by rw [← hK]; positivity
    have hJpos : 0 < J := by rw [← hJ]; positivity
    have hdK : (d : ℚ) * K ≤ n * J := by
      have h : P * (d * K) ≤ P * (n * J) := by linarith
      exact le_of_mul_le_mul_left h hPpos
    have e1 : (n : ℚ) / d + n / d / P = n * (P + 1) / (d * P) := by field_simp; ring
    have e2 : (n : ℚ) / d - n / d / P = n * (P - 1) / (d * P) := by field_simp; ring
    have up : (m : ℚ) * (K * 2) / (P * J) ≤ n * (P + 1) / (d * P) := by
      rw [div_le_div_iff₀ (by positivity) (by positivity)]
      linarith [mul_le_mul_of_nonneg_right b1q (le_of_lt hPpos),
        mul_le_mul_of_nonneg_right hdK (le_of_lt hPpos)]
    have lo : (n : ℚ) * (P - 1) / (d * P) ≤ m * (K * 2) / (P * J) := by
      rw [div_le_div_iff₀ (by positivity) (by positivity)]
      linarith [mul_le_mul_of_nonneg_right b2q (le_of_lt hPpos),
        mul_le_mul_of_nonneg_right hdK (le_of_lt hPpos)]
    rw [abs_le]
    constructor <;> linarith

/-- Two doubles computed by the model: `1 / 10` is `3602879701896397 * 2^-55`
(above one tenth) and `23 / 40` is `2589569785738035 * 2^-52` (below `0.575`). -/
theorem Dbl.round_examples :
    (Dbl.div (Dbl.ofNat 1) (Dbl.ofNat 10)).val = 3602879701896397 / 2 ^ 55 ∧
    (Dbl.div (Dbl.ofNat 23) (Dbl.ofNat 40)).val = 2589569785738035 / 2 ^ 52 ∧
    (Dbl.div (Dbl.ofNat 23) (Dbl.ofNat 40)).val < 575 / 1000 := by
  have e1 : Dbl.div (Dbl.ofNat 1) (Dbl.ofNat 10) = ⟨7205759403792794, 2 ^ 56⟩ := by decide
  have e2 : Dbl.div (Dbl.ofNat 23) (Dbl.ofNat 40) = ⟨5179139571476070 * 2 ^ 5, 2 ^ 58⟩ := by
    decide
  rw [e1, e2]
  simp only [Dbl.val]
  norm_num

/-- `Math.round` is the floor of `x + 1/2`. -/
theorem mathRound_eq (y : Dbl) (hy : 0 < y.den) (k : Nat)
    (h1 : (k : ℚ) ≤ y.val + 1 / 2) (h2 : y.val + 1 / 2 < k + 1) : mathRound y = k := by
  have hd : (0 : ℚ) < y.den := by exact_mod_cast hy
  unfold Dbl.val at h1 h2
  have e : (y.num : ℚ) / y.den + 1 / 2 = (2 * y.num + y.den) / (2 * y.den) := by
    field_simp; ring
  rw [e] at h1 h2
  rw [le_div_iff₀ (by positivity)] at h1
  rw [div_lt_iff₀ (by positivity)] at h2
  unfold mathRound
  apply Nat.div_eq_of_lt_le
  · exact_mod_cast h1
  · have : ((2 * y.num + y.den : ℕ) : ℚ) < ((k + 1) * (2 * y.den) : ℕ) := by
      push_cast; linarith
    exact_mod_cast this

/-- The double computed for `((a / b) * 100)` is within `201 * 2^-53` of the
exact value when `0 < a ≤ b`. -/
theorem accuracy_error (a b : Nat) (ha : 0 < a) (hab : a ≤ b) :
    0 < (Dbl.mul (Dbl.div (Dbl.ofNat a) (Dbl.ofNat b)) (Dbl.ofNat 100)).den ∧
    |(Dbl.mul (Dbl.div (Dbl.ofNat a) (Dbl.ofNat b)) (Dbl.ofNat 100)).val - 100 * a / b|
      ≤ 201 / 2 ^ 53 := by
  have hb : 0 < b := by omega
  have haq : (0 : ℚ) < a := by exact_mod_cast ha
  have hbq : (0 : ℚ) < b := by exact_mod_cast hb
  have habq : (a : ℚ) ≤ b := by exact_mod_cast hab
  simp only [Dbl.mul, Dbl.div, Dbl.ofNat]
  obtain ⟨hxd, hx⟩ := Dbl.round_error (a * 1) (1 * b) (by omega) (by omega)
  generalize Dbl.round (a * 1) (1 * b) = x at *
  have hQ0 : (0 : ℚ) < a / b := by positivity
  have hQ1 : (a : ℚ) / b ≤ 1 := by rw [div_le_one hbq]; exact habq
  have ecast : ((a * 1 : ℕ) : ℚ) / ((1 * b : ℕ) : ℚ) = a / b := by push_cast; ring
  rw [ecast, abs_le] at hx
  obtain ⟨hx1, hx2⟩ := hx
  have hxdq : (0 : ℚ) < x.den := by exact_mod_cast hxd
  have hXpos : 0 < x.val := by
    have : (a : ℚ) / b / 2 ^ 53 < a / b := by
      rw [div_lt_iff₀ (by positivity)]; linarith [show (1 : ℚ) < 2 ^ 53 by norm_num]
    linarith
  have hxn : 0 < x.num := by
    rcases Nat.eq_zero_or_pos x.num with h | h
    · rw [Dbl.val, h] at hXpos; simp at hXpos
    · exact h
  obtain ⟨hyd, hy⟩ := Dbl.round_error (x.num * 100) (x.den * 1) (by omega) (by omega)
  generalize Dbl.round (x.num * 100) (x.den * 1) = y at *
  have ecast2 : ((x.num * 100 : ℕ) : ℚ) / ((x.den * 1 : ℕ) : ℚ) = 100 * x.val := by
    rw [Dbl.val]; push_cast; field_simp; ring
  rw [ecast2, abs_le] at hy
  obtain ⟨hy1, hy2⟩ := hy
  refine ⟨hyd, ?_⟩
  have e3 : (100 : ℚ) * a / b = 100 * (a / b) := by ring
  rw [e3, abs_le]
  generalize (a : ℚ) / b = Q at *
  generalize x.val = X at *
  generalize y.val = Y at *
  norm_num at hx1 hx2 hy1 hy2 ⊢
  constructor <;> linarith

/-- The accuracy expression against the exact quotient: for fewer than `2^44`
code units it is the exact value rounded half up, except possibly at an exact
half, where it may be one less. -/
theorem computeAccuracy_spec (len err : Nat) (hlen : 0 < len) (hb : len < 2 ^ 44) :
    (computeAccuracy len err = (200 * (len - err) + len) / (2 * len) ∨
      computeAccuracy len err + 1 = (200 * (len - err) + len) / (2 * len)) ∧
    ((200 * (len - err) + len) % (2 * len) ≠ 0 →
      computeAccuracy len err = (200 * (len - err) + len) / (2 * len)) := by
  have hle : len - err ≤ len := Nat.sub_le _ _
  unfold computeAccuracy
  simp only [gt_iff_lt, hlen, if_true]
  generalize len - err = a at *
  rcases Nat.eq_zero_or_pos a with h0 | hpos
  · subst h0
    have e1 : (200 * 0 + len) / (2 * len) = 0 := Nat.div_eq_of_lt (by omega)
    have e2 : mathRound (Dbl.mul (Dbl.div (Dbl.ofNat 0) (Dbl.ofNat len)) (Dbl.ofNat 100)) = 0 := by
      simp [Dbl.mul, Dbl.div, Dbl.ofNat, Dbl.round, mathRound]
    rw [e1, e2]
    simp
  · obtain ⟨hyd, hy⟩ := accuracy_error a len hpos hle
    generalize Dbl.mul (Dbl.div (Dbl.ofNat a) (Dbl.ofNat len)) (Dbl.ofNat 100) = y at *
    have hdm := Nat.div_add_mod (200 * a + len) (2 * len)
    have hr := Nat.mod_lt (200 * a + len) (show 0 < 2 * len by omega)
    generalize (200 * a + len) / (2 * len) = k at *
    generalize (200 * a + len) % (2 * len) = r at *
    have hlq : (0 : ℚ) < len := by exact_mod_cast hlen
    have hdmq : (2 : ℚ) * len * k + r = 200 * a + len := by exact_mod_cast hdm
    have hrq : (r : ℚ) < 2 * len := by exact_mod_cast hr
    have hex : (100 : ℚ) * a / len = k + r / (2 * len) - 1 / 2 := by
      field_simp; linear_combination (-(2 : ℚ) * len) * hdmq
    rw [hex, abs_le] at hy
    obtain ⟨hy1, hy2⟩ := hy
    have hE : (201 : ℚ) / 2 ^ 53 < 1 / (2 * len) := by
      rw [div_lt_div_iff₀ (by positivity) (by positivity)]
      have h44 : (len : ℚ) < 17592186044416 := by
        have : len < 17592186044416 := by omega
        exact_mod_cast this
      norm_num
      linarith
    have hE1 : (201 : ℚ) / 2 ^ 53 < 1 := by norm_num
    have hr0 : (0 : ℚ) ≤ r / (2 * len) := by positivity
    by_cases hrz : r = 0
    · subst hrz
      simp only [Nat.cast_zero, zero_div, add_zero] at hy1 hy2
      refine ⟨?_, fun h => absurd rfl h⟩
      by_cases hk : (k : ℚ) ≤ y.val + 1 / 2
      · left
        exact mathRound_eq y hyd k hk (by linarith)
      · right
        have hk1 : 1 ≤ k := by
          rcases Nat.eq_zero_or_pos k with h | h
          · subst h; omega
          · exact h
        obtain ⟨k', rfl⟩ : ∃ k', k = k' + 1 := ⟨k - 1, by omega⟩
        have := mathRound_eq y hyd k' (by push_cast at hy1; linarith) (by push_cast at hk; linarith)
        omega
    · have hr1 : (1 : ℚ) ≤ r := by
        have : 1 ≤ r := by omega
        exact_mod_cast this
      have hlo : (1 : ℚ) / (2 * len) ≤ r / (2 * len) := by
        apply div_le_div_of_nonneg_right hr1 (by positivity)
      have hhi : (r : ℚ) / (2 * len) ≤ 1 - 1 / (2 * len) := by
        have hr2 : (r : ℚ) + 1 ≤ 2 * len := by
          have : r + 1 ≤ 2 * len := by omega
          exact_mod_cast this
        have e : (1 : ℚ) - 1 / (2 * len) = (2 * len - 1) / (2 * len) := by field_simp
        rw [e]
        apply div_le_div_of_nonneg_right (by linarith) (by positivity)
      have hk := mathRound_eq y hyd k (by linarith) (by linarith)
      exact ⟨Or.inl hk, fun _ => hk⟩

/-! ## C4 -/

/-- C4 (as amended): for a typed value of fewer than `2^44` code units, the
accuracy computed by `handleInput` is 100 when the value is empty; otherwise it
is `round(100 * (len - errorCount) / len)` (halves up) whenever that quotient is
not exactly half-way between two integers, and at an exact half it is that
rounding or one less (the quotient and the product are rounded to binary64
before `Math.round`).  For target `cat` and typed value `cbt` the error count
is 1 and the accuracy 67. -/
theorem handleInput_accuracy_rounding (s : State) (value : JSString) (now : Nat)
    (hlen : value.length < 2 ^ 44) :
    (value = [] → (handleInput s value now).accuracy = 100) ∧
    (value ≠ [] →
      ((handleInput s value now).accuracy
          = exactAccuracy value.length (handleInput s value now).errors ∨
        (handleInput s value now).accuracy + 1
          = exactAccuracy value.length (handleInput s value now).errors) ∧
      (¬ isHalfway value.length (handleInput s value now).errors →
        (handleInput s value now).accuracy
          = exactAccuracy value.length (handleInput s value now).errors)) ∧
    (s.text = catText → value = ofAscii "cbt" →
      (handleInput s value now).errors = 1 ∧ (handleInput s value now).accuracy = 67) := by
  rw [handleInput_accuracy, handleInput_errors]
  refine ⟨?_, ?_, ?_⟩
  · intro h
    subst h
    rfl
  · intro h
    have hpos : 0 < value.length := List.length_pos.mpr h
    have hs := computeAccuracy_spec value.length (countErrors s.text value) hpos hlen
    have e : exactAccuracy value.length (countErrors s.text value)
        = (200 * (value.length - countErrors s.text value) + value.length)
            / (2 * value.length) := by
      simp only [exactAccuracy, roundHalfUp, gt_iff_lt, hpos, if_true]
      congr 1
      ring
    have e2 : isHalfway value.length (countErrors s.text value)
        ↔ (200 * (value.length - countErrors s.text value) + value.length)
            % (2 * value.length) = 0 := by
      simp only [isHalfway]
      have : 2 * (100 * (value.length - countErrors s.text value))
          = 200 * (value.length - countErrors s.text value) := by ring
      rw [this]
    rw [e, e2]
    exact hs
  · intro h1 h2
    rw [h1, h2]
    decide

theorem handleInput_accuracy_rounding_witness :
    (handleInput (startTest catText initialState) (ofAscii "cbt") 1).errors = 1 ∧
    (handleInput (startTest catText initialState) (ofAscii "cbt") 1).accuracy = 67 :=
  (handleInput_accuracy_rounding (startTest catText initialState) (ofAscii "cbt") 1
    (by decide)).2.2 rfl rfl

/-- C4 fails as stated: with the 40-character sample text and 17 wrong
characters the exact quotient is 57.5, which rounds half up to 58, but the
binary64 product `(23 / 40) * 100` is `57.49999999999999` and the accuracy
computed by `handleInput` is 57. -/
theorem handleInput_accuracy_not_half_up :
    packTyped.length = 40 ∧
    (handleInput (startTest packText initialState) packTyped 1).errors = 17 ∧
    (handleInput (startTest packText initialState) packTyped 1).accuracy = 57 ∧
    exactAccuracy packTyped.length
      (handleInput (startTest packText initialState) packTyped 1).errors = 58 := by
  decide

/-! ## Achievement rules -/

theorem unlockStep_fst (s : State) (id : AchievementId) (cond : Bool) (reward : Int)
    (acc : List AchievementId × State) :
    (unlockStep s id cond reward acc).1
      = acc.1 ++ (if !s.achievements.contains id && cond then [id] else []) := by
  unfold unlockStep
  split <;> simp

/-- A block whose guard fails leaves both the list and the pending state alone. -/
theorem unlockStep_skip (s : State) (id : AchievementId) (cond : Bool) (reward : Int)
    (acc : List AchievementId × State) (h : id ∈ s.achievements ∨ cond = false) :
    unlockStep s id cond reward acc = acc := by
  unfold unlockStep
  rcases h with h | h
  · simp [h]
  · simp [h]

/-- The list set by `checkAchievements`: the snapshot list followed by the ids
of the blocks that fired, in source order. -/
theorem checkAchievements_achievements (s : State) (w a t : Nat) (p : State) :
    (checkAchievements s w a t p).achievements
      = s.achievements
        ++ ((if !s.achievements.contains .first_test && decide (t ≥ 1) then [.first_test] else [])
        ++ ((if !s.achievements.contains .speed_demon && decide (w ≥ 60) then [.speed_demon] else [])
        ++ ((if !s.achievements.contains .perfectionist && decide (a = 100)
              then [.perfectionist] else [])
        ++ ((if !s.achievements.contains .wpm_80 && decide (w ≥ 80) then [.wpm_80] else [])
        ++ ((if !s.achievements.contains .wpm_100 && decide (w ≥ 100) then [.wpm_100] else [])
        ++ ((if !s.achievements.contains .level_10 && decide (s.level ≥ 10)
              then [.level_10] else [])
        ++ (if !s.achievements.contains .tests_50 && decide (t ≥ 50)
              then [.tests_50] else []))))))) := by
  simp only [checkAchievements, unlockStep_fst, List.append_assoc]

/-- After `checkAchievements`, every rule is either unlocked or not satisfied. -/
theorem checkAchievements_saturated (s : State) (w a t : Nat) (p : State)
    (id : AchievementId) (cond : Bool)
    (h : (if !s.achievements.contains id && cond then [id] else [])
          ⊆ (checkAchievements s w a t p).achievements) :
    id ∈ (checkAchievements s w a t p).achievements ∨ cond = false := by
  by_cases hc : cond = true
  · left
    by_cases hm : id ∈ s.achievements
    · rw [checkAchievements_achievements]
      exact List.mem_append_left _ hm
    · apply h
      simp [hm, hc]
  · right
    simpa using hc

/-! ## C7 -/

/-- C7: for every unlocked list `S` and inputs `(wpm, accuracy, totalTests, level)`,
`checkAchievements` produces a list `S'` that contains every id of `S`, adds
only ids that were not in `S`, and is a fixed point: evaluated again in a
render whose unlocked list is `S'`, with the same inputs, it sets the same list
and leaves `xp` and `level` untouched. -/
theorem checkAchievements_monotone_fixed_point (s p : State) (w a t : Nat) :
    (∀ id ∈ s.achievements, id ∈ (checkAchievements s w a t p).achievements) ∧
    (∃ added, (checkAchievements s w a t p).achievements = s.achievements ++ added ∧
      ∀ id ∈ added, id ∉ s.achievements) ∧
    (∀ (s2 p2 : State), s2.achievements = (checkAchievements s w a t p).achievements →
      s2.level = s.level →
      checkAchievements s2 w a t p2
        = { p2 with achievements := (checkAchievements s w a t p).achievements }) := by
  refine ⟨?_, ?_, ?_⟩
  · intro id hid
    rw [checkAchievements_achievements]
    exact List.mem_append_left _ hid
  · refine ⟨_, checkAchievements_achievements s w a t p, ?_⟩
    intro id hid
    simp only [List.mem_append] at hid
    rcases hid with h | h | h | h | h | h | h <;>
    · split at h
      · rename_i hc
        simp only [List.mem_singleton] at h
        subst h
        simp at hc
        exact hc.1
      · simp at h
  · intro s2 p2 h2 hl
    have sub : ∀ (id : AchievementId) (cond : Bool),
        (if !s.achievements.contains id && cond then [id] else [])
          ⊆ (checkAchievements s w a t p).achievements →
        id ∈ s2.achievements ∨ cond = false := by
      intro id cond h
      rw [h2]
      exact checkAchievements_saturated s w a t p id cond h
    have e := checkAchievements_achievements s w a t p
    have k1 := sub .first_test (decide (t ≥ 1)) (by
      rw [e]; intro x hx
      exact List.mem_append_right _ (List.mem_append_left _ hx))
    have k2 := sub .speed_demon (decide (w ≥ 60)) (by
      rw [e]; intro x hx
      exact List.mem_append_right _ (List.mem_append_right _ (List.mem_append_left _ hx)))
    have k3 := sub .perfectionist (decide (a = 100)) (by
      rw [e]; intro x hx
      exact List.mem_append_right _ (List.mem_append_right _ (List.mem_append_right _ (List.mem_append_left _ hx))))
    have k4 := sub .wpm_80 (decide (w ≥ 80)) (by
      rw [e]; intro x hx
      exact List.mem_append_right _ (List.mem_append_right _ (List.mem_append_right _ (List.mem_append_right _ (List.mem_append_left _ hx)))))
    have k5 := sub .wpm_100 (decide (w ≥ 100)) (by
      rw [e]; intro x hx
      exact List.mem_append_right _ (List.mem_append_right _ (List.mem_append_right _ (List.mem_append_right _ (List.mem_append_right _ (List.mem_append_left _ hx))))))
    have k6 := sub .level_10 (decide (s.level ≥ 10)) (by
      rw [e]; intro x hx
      exact List.mem_append_right _ (List.mem_append_right _ (List.mem_append_right _ (List.mem_append_right _ (List.mem_append_right _ (List.mem_append_right _ (List.mem_append_left _ hx)))))))
    have k7 := sub .tests_50 (decide (t ≥ 50)) (by
      rw [e]; intro x hx
      exact List.mem_append_right _ (List.mem_append_right _ (List.mem_append_right _ (List.mem_append_right _ (List.mem_append_right _ (List.mem_append_right _ (List.mem_append_right _ (hx))))))))
    rw [← hl] at k6
    have hL : checkAchievements s2 w a t p2 = { p2 with achievements := s2.achievements } := by
      unfold checkAchievements
      simp only [unlockStep_skip _ _ _ _ _ k1, unlockStep_skip _ _ _ _ _ k2,
        unlockStep_skip _ _ _ _ _ k3, unlockStep_skip _ _ _ _ _ k4,
        unlockStep_skip _ _ _ _ _ k5, unlockStep_skip _ _ _ _ _ k6,
        unlockStep_skip _ _ _ _ _ k7]
    rw [hL, h2]

/-! ## Rank lookups -/

/-- The overwrite loop returns the last qualifying entry, or the initial value
when no entry qualifies. -/
theorem currentRankLoop_eq_getLast (level : Nat) (table : List Rank) (init : Rank) :
    currentRankLoop level init table
      = ((table.filter (fun r => decide (r.minLevel ≤ level))).getLast?).getD init := by
  unfold currentRankLoop
  induction table generalizing init with
  | nil => rfl
  | cons r rest ih =>
    simp only [List.foldl_cons, ih, List.filter_cons]
    by_cases h : r.minLevel ≤ level
    · simp only [ge_iff_le, h, if_true, decide_True]
      rw [List.getLast?_cons]
      rfl
    · simp only [ge_iff_le, h, if_false, decide_False]
      simp

/-- The early-return loop is a search for the first entry above `level`. -/
theorem nextRankLoop_eq_find (level : Nat) (table : List Rank) :
    nextRankLoop level table = table.find? (fun r => decide (level < r.minLevel)) := by
  induction table with
  | nil => rfl
  | cons r rest ih =>
    simp only [nextRankLoop, List.find?_cons, ih]
    by_cases h : level < r.minLevel <;> simp [h]

/-! ## C8 -/

/-- C8: for every `level ≥ 1`, `getCurrentRank` returns the last entry of the
`ranks` table whose `minLevel ≤ level`, which is the entry with the greatest
`minLevel` not exceeding `level`; such an entry exists because the first entry
has `minLevel` 1. -/
theorem getCurrentRank_last_qualifying (level : Nat) (h : 1 ≤ level) :
    (ranks.filter (fun r => decide (r.minLevel ≤ level))).getLast?
      = some (getCurrentRank level) ∧
    getCurrentRank level ∈ ranks ∧
    (getCurrentRank level).minLevel ≤ level ∧
    (∀ r ∈ ranks, r.minLevel ≤ level → r.minLevel ≤ (getCurrentRank level).minLevel) ∧
    ranks.head? = some ranks0 ∧ ranks0.minLevel = 1 := by
  have e := currentRankLoop_eq_getLast level ranks ranks0
  rw [getCurrentRank, e]
  by_cases h5 : 5 ≤ level <;> by_cases h10 : 10 ≤ level <;> by_cases h20 : 20 ≤ level <;>
  by_cases h35 : 35 ≤ level <;> by_cases h50 : 50 ≤ level <;> by_cases h75 : 75 ≤ level <;>
  by_cases h100 : 100 ≤ level <;>
  first
  | omega
  | (simp only [ranks, ranks0, List.filter_cons, List.filter_nil, h, h5, h10, h20, h35, h50,
      h75, h100, decide_True, decide_False, if_true, if_false, List.getLast?_cons_cons,
      List.getLast?_singleton, Option.getD_some, List.head?_cons, true_and, and_true,
      Bool.false_eq_true]
     refine ⟨by decide, ?_⟩
     intro r hr hle
     simp only [List.mem_cons, List.mem_singleton, List.mem_nil_iff, or_false] at hr
     rcases hr with rfl | rfl | rfl | rfl | rfl | rfl | rfl | rfl <;>
     · simp only [] at hle ⊢
       omega)

theorem getCurrentRank_last_qualifying_witness :
    1 ≤ 7 ∧
    (ranks.filter (fun r => decide (r.minLevel ≤ 7))).getLast? = some (getCurrentRank 7) ∧
    (getCurrentRank 7).minLevel ≤ 7 :=
  ⟨by decide, (getCurrentRank_last_qualifying 7 (by decide)).1,
    (getCurrentRank_last_qualifying 7 (by decide)).2.2.1⟩

/-! ## C9 -/

/-- C9: for every `level ≥ 1`, `getNextRank` returns the first `ranks` entry
whose `minLevel > level`, and returns none exactly when `level ≥ 100`; whenever
it returns an entry `n`, `n` is the table entry immediately after the entry `r`
of `getCurrentRank`, and `r.minLevel ≤ level < n.minLevel`. -/
theorem getNextRank_follows_current (level : Nat) (h : 1 ≤ level) :
    getNextRank level = ranks.find? (fun r => decide (level < r.minLevel)) ∧
    (getNextRank level = none ↔ 100 ≤ level) ∧
    (∀ n, getNextRank level = some n →
      ∃ i, ranks[i]? = some (getCurrentRank level) ∧ ranks[i + 1]? = some n ∧
        (getCurrentRank level).minLevel ≤ level ∧ level < n.minLevel) := by
  have e := currentRankLoop_eq_getLast level ranks ranks0
  have e2 := nextRankLoop_eq_find level ranks
  rw [getCurrentRank, e, getNextRank, e2]
  refine ⟨rfl, ?_⟩
  by_cases h5 : 5 ≤ level <;> by_cases h10 : 10 ≤ level <;> by_cases h20 : 20 ≤ level <;>
  by_cases h35 : 35 ≤ level <;> by_cases h50 : 50 ≤ level <;> by_cases h75 : 75 ≤ level <;>
  by_cases h100 : 100 ≤ level <;>
  first
  | omega
  | (have g1 : ¬ level < 1 := by omega
     have g5 : level < 5 ↔ ¬ 5 ≤ level := by omega
     have g10 : level < 10 ↔ ¬ 10 ≤ level := by omega
     have g20 : level < 20 ↔ ¬ 20 ≤ level := by omega
     have g35 : level < 35 ↔ ¬ 35 ≤ level := by omega
     have g50 : level < 50 ↔ ¬ 50 ≤ level := by omega
     have g75 : level < 75 ↔ ¬ 75 ≤ level := by omega
     have g100 : level < 100 ↔ ¬ 100 ≤ level := by omega
     simp only [ranks, ranks0, List.filter_cons, List.filter_nil, List.find?_cons,
      List.find?_nil, g1, g5, g10, g20, g35, g50, g75, g100, h, h5, h10, h20, h35, h50,
      h75, h100, decide_True, decide_False, if_true, if_false, List.getLast?_cons_cons,
      List.getLast?_singleton, Option.getD_some, true_and, and_true, not_true_eq_false,
      not_false_eq_true, Bool.false_eq_true, reduceCtorEq, false_iff, true_iff, iff_true,
      iff_false, Option.some.injEq, forall_eq', not_false_eq_true, IsEmpty.forall_iff]
     first
     | exact ⟨0, by decide⟩
     | exact ⟨1, by decide⟩
     | exact ⟨2, by decide⟩
     | exact ⟨3, by decide⟩
     | exact ⟨4, by decide⟩
     | exact ⟨5, by decide⟩
     | exact ⟨6, by decide⟩
     | exact fun _ => trivial)

theorem getNextRank_follows_current_witness :
    1 ≤ 7 ∧ (getNextRank 7 = none ↔ 100 ≤ 7) :=
  ⟨by decide, (getNextRank_follows_current 7 (by decide)).2.1⟩

/-! ## Completion: XP, daily counters, level rule -/

theorem finishTest_dailyProgress (s : State) (acc : Nat) (p : State) :
    (finishTest s acc p).dailyProgress
      = { testsWithWpm := p.dailyProgress.testsWithWpm + (if s.wpm ≥ 50 then 1 else 0),
          testsWithAccuracy := p.dailyProgress.testsWithAccuracy + (if acc ≥ 95 then 1 else 0),
          totalChars := p.dailyProgress.totalChars + s.text.length,
          perfectTests := p.dailyProgress.perfectTests + (if s.errors = 0 then 1 else 0) } := by
  unfold finishTest
  simp only [checkAchievements_proj State.dailyProgress (fun _ _ _ => rfl) (fun _ _ => rfl)]
  split <;> rfl

/-- On completion the perfect-test counter follows the `errors` state of the
render that handled the input, that is the error count of the previous input. -/
theorem handleInput_perfectTests (s : State) (value : JSString) (now : Nat)
    (h : value.length ≥ s.text.length) :
    (handleInput s value now).dailyProgress.perfectTests
      = s.dailyProgress.perfectTests + (if s.errors = 0 then 1 else 0) := by
  unfold handleInput
  simp only [h, if_true, finishTest_dailyProgress]
  split <;> rfl

theorem finishTest_achievements (s : State) (acc : Nat) (p : State) :
    (finishTest s acc p).achievements
      = (checkAchievements s s.wpm acc (s.totalTests + 1) p).achievements := by
  unfold finishTest
  simp only [checkAchievements_achievements]

/-- On completion `level_10` is in the new list exactly when it was unlocked
before or the level of the render that handled the input is at least 10. -/
theorem finishTest_level_10 (s : State) (acc : Nat) (p : State) :
    AchievementId.level_10 ∈ (finishTest s acc p).achievements
      ↔ AchievementId.level_10 ∈ s.achievements ∨ 10 ≤ s.level := by
  rw [finishTest_achievements, checkAchievements_achievements]
  by_cases hm : AchievementId.level_10 ∈ s.achievements
  · simp [hm]
  · by_cases hl : 10 ≤ s.level
    · simp [hm, hl]
    · simp only [List.mem_append, hm, false_or, hl, or_false, iff_false]
      intro h
      rcases h with h | h | h | h | h | h | h <;>
      · split at h
        · rename_i hc
          simp at hc h
        · simp at h

/-- A guard of `checkAchievements` whose singleton is empty has failed. -/
theorem guard_failed (s : State) (id : AchievementId) (cond : Bool)
    (h : (if !s.achievements.contains id && cond then [id] else []) = []) :
    id ∈ s.achievements ∨ cond = false := by
  by_cases hm : id ∈ s.achievements
  · exact Or.inl hm
  · right
    by_cases hc : cond = true
    · simp [hm, hc] at h
    · simpa using hc

/-- When a completion unlocks nothing new, the cumulative XP grows by exactly
the session's own gain (from `level ≥ 1` and `xp ≥ 0`). -/
theorem finishTest_cumulativeXp_no_unlock (s p : State) (acc : Nat)
    (hl : 1 ≤ s.level) (hx : 0 ≤ s.xp)
    (hnone : (finishTest s acc p).achievements = s.achievements) :
    cumulativeXp (finishTest s acc p) = cumulativeXp s + totalXpGain s.wpm acc := by
  rw [finishTest_achievements, checkAchievements_achievements] at hnone
  have hnil := List.append_right_eq_self.mp hnone
  simp only [List.append_eq_nil] at hnil
  obtain ⟨g1, g2, g3, g4, g5, g6, g7⟩ := hnil
  have k1 := guard_failed s _ _ g1
  have k2 := guard_failed s _ _ g2
  have k3 := guard_failed s _ _ g3
  have k4 := guard_failed s _ _ g4
  have k5 := guard_failed s _ _ g5
  have k6 := guard_failed s _ _ g6
  have k7 := guard_failed s _ _ g7
  have e := addXp_cumulativeXp s s (totalXpGain s.wpm acc) hl (by omega)
  rw [← e]
  unfold finishTest checkAchievements
  simp only [unlockStep_skip _ _ _ _ _ k1, unlockStep_skip _ _ _ _ _ k2,
    unlockStep_skip _ _ _ _ _ k3, unlockStep_skip _ _ _ _ _ k4,
    unlockStep_skip _ _ _ _ _ k5, unlockStep_skip _ _ _ _ _ k6,
    unlockStep_skip _ _ _ _ _ k7]
  rfl

/-! ## C1 -/

/-- C1 fails on the code: completing `cat` in one input from the initial
progress earns a session gain of 50 and newly unlocks `first_test` (50) and
`perfectionist` (150), so the claim requires the cumulative XP to grow by 250;
every `addXp` call starts from the `xp` and `level` of the same render and
overwrites the previous call, so only the last grant (150) is kept. -/
theorem finishTest_keeps_last_grant_only :
    (handleInput catSession catText 1000).isFinished = true ∧
    cumulativeXp catSession = 0 ∧
    totalXpGain catSession.wpm (handleInput catSession catText 1000).accuracy = 50 ∧
    (handleInput catSession catText 1000).achievements = [.first_test, .perfectionist] ∧
    newRewards catSession.achievements (handleInput catSession catText 1000).achievements = 200 ∧
    (handleInput catSession catText 1000).level = 2 ∧
    (handleInput catSession catText 1000).xp = 50 ∧
    cumulativeXp (handleInput catSession catText 1000) = 150 := by
  decide

/-! ## C5 -/

/-- C5 fails on the code: for target `cat` and inputs `c`, `ca`, `cab` the
completing input has one error, yet the perfect-test counter goes from 0 to 1,
because `finishTest` reads the `errors` state left by the input `ca`. -/
theorem perfect_counter_reads_previous_errors :
    catSessionTwoTyped.errors = 0 ∧
    catSessionTwoTyped.dailyProgress.perfectTests = 0 ∧
    (handleInput catSessionTwoTyped (ofAscii "cab") 1400).isFinished = true ∧
    countErrors catText (ofAscii "cab") = 1 ∧
    (handleInput catSessionTwoTyped (ofAscii "cab") 1400).errors = 1 ∧
    (handleInput catSessionTwoTyped (ofAscii "cab") 1400).dailyProgress.perfectTests = 1 := by
  decide

/-! ## C6 -/

/-- C6 fails on the code: from level 9 with 400 XP the session's own gain of
50 XP leads to level 10, `level_10` is not yet unlocked, and the completion
does not unlock it, because the rule reads the level of the render that
handled the input (9). -/
theorem level_10_reads_level_before_session :
    AchievementId.level_10 ∉ nearLevelTen.achievements ∧
    nearLevelTen.level = 9 ∧
    totalXpGain nearLevelTen.wpm (handleInput nearLevelTen catText 1000).accuracy = 50 ∧
    (addXp nearLevelTen 50 nearLevelTen).level = 10 ∧
    (handleInput nearLevelTen catText 1000).isFinished = true ∧
    (handleInput nearLevelTen catText 1000).level = 10 ∧
    AchievementId.level_10 ∉ (handleInput nearLevelTen catText 1000).achievements := by
  decide

/-! ## Word count -/

theorem splitAux_run_count (l : JSString) :
    ((splitAux [] true l).filter (fun token => !token.isEmpty)).length
      = ((splitAux [] false l).filter (fun token => !token.isEmpty)).length := by
  cases l with
  | nil => rfl
  | cons c r =>
    by_cases hc : isWhiteSpace c = true
    · simp [splitAux, hc]
    · simp [splitAux, hc]

/-- Leading white space does not change the number of non-empty tokens. -/
theorem wordCountSpec_dropWhile (l : JSString) :
    wordCountSpec (l.dropWhile isWhiteSpace) = wordCountSpec l := by
  induction l with
  | nil => rfl
  | cons c r ih =>
    by_cases hc : isWhiteSpace c = true
    · rw [List.dropWhile_cons_of_pos hc, ih]
      simp only [wordCountSpec, splitWhitespace]
      rw [← splitAux_run_count r]
      simp [splitAux, hc]
    · rw [List.dropWhile_cons_of_neg hc]

theorem splitAux_append_ws (c : Nat) (hc : isWhiteSpace c = true) (l : JSString) :
    ∀ (cur : JSString) (inRun : Bool), (inRun = true → cur = []) →
    ((splitAux cur inRun (l ++ [c])).filter (fun token => !token.isEmpty)).length
      = ((splitAux cur inRun l).filter (fun token => !token.isEmpty)).length := by
  induction l with
  | nil =>
    intro cur inRun h
    cases inRun with
    | true =>
      have := h rfl
      subst this
      simp [splitAux, hc]
    | false => simp [splitAux, hc, List.filter_cons]
  | cons x l ih =>
    intro cur inRun h
    by_cases hx : isWhiteSpace x = true
    · cases inRun with
      | true =>
        simp only [List.cons_append, splitAux, hx, if_true]
        exact ih [] true (fun _ => rfl)
      | false =>
        simp only [List.cons_append, splitAux, hx, if_true, Bool.false_eq_true, if_false,
          List.filter_cons]
        have := ih [] true (fun _ => rfl)
        split <;> simp [this]
    · simp only [List.cons_append, splitAux, hx, if_false, Bool.false_eq_true]
      exact ih (x :: cur) false (fun h => by cases h)

/-- Trailing white space does not change the number of non-empty tokens. -/
theorem wordCountSpec_append_ws (suffix : JSString) :
    ∀ (l : JSString), (∀ c ∈ suffix, isWhiteSpace c = true) →
    wordCountSpec (l ++ suffix) = wordCountSpec l := by
  induction suffix with
  | nil => intro l _; simp
  | cons c r ih =>
    intro l h
    have e : l ++ c :: r = (l ++ [c]) ++ r := by simp
    rw [e, ih (l ++ [c]) (fun x hx => h x (List.mem_cons_of_mem _ hx))]
    simp only [wordCountSpec, splitWhitespace]
    exact splitAux_append_ws c (h c (List.mem_cons_self _ _)) l [] false (fun h => by cases h)

theorem wordCountSpec_jsTrim (buffer : JSString) :
    wordCountSpec (jsTrim buffer) = wordCountSpec buffer := by
  unfold jsTrim
  rw [← wordCountSpec_dropWhile buffer]
  generalize buffer.dropWhile isWhiteSpace = m
  have e : m = (m.reverse.dropWhile isWhiteSpace).reverse
      ++ (m.reverse.takeWhile isWhiteSpace).reverse := by
    rw [← List.reverse_append, List.takeWhile_append_dropWhile, List.reverse_reverse]
  conv_rhs => rw [e]
  rw [wordCountSpec_append_ws]
  intro c hc
  rw [List.mem_reverse] at hc
  exact (List.mem_takeWhile_imp hc)

theorem dropWhile_append_singleton (p : Nat → Bool) (c : Nat) (hc : p c = false)
    (l : List Nat) : (l ++ [c]).dropWhile p = l.dropWhile p ++ [c] := by
  induction l with
  | nil => simp [List.dropWhile, hc]
  | cons x l ih =>
    by_cases hx : p x = true
    · simp only [List.cons_append, List.dropWhile_cons_of_pos hx, ih]
    · simp only [List.cons_append, List.dropWhile_cons_of_neg hx]

/-- Inside a word or right after a separator, a string that does not end in
white space splits into non-empty pieces only. -/
theorem splitAux_tokens_nonempty (r : JSString) :
    ∀ (cur : JSString) (inRun : Bool), (inRun = false → cur ≠ []) →
    (r = [] → inRun = false) → (∀ x, r.getLast? = some x → isWhiteSpace x = false) →
    ∀ token ∈ splitAux cur inRun r, token ≠ [] := by
  induction r with
  | nil =>
    intro cur inRun h1 h2 _ token ht
    simp only [splitAux, List.mem_singleton] at ht
    subst ht
    simpa using h1 (h2 rfl)
  | cons x r ih =>
    intro cur inRun h1 _ h3 token ht
    have hlast : ∀ y, r.getLast? = some y → isWhiteSpace y = false := by
      intro y hy
      apply h3
      cases r with
      | nil => simp at hy
      | cons z r => rw [List.getLast?_cons_cons]; exact hy
    by_cases hx : isWhiteSpace x = true
    · have hr : r ≠ [] := by
        intro hr
        subst hr
        have := h3 x (by simp)
        rw [hx] at this
        cases this
      cases inRun with
      | true =>
        simp only [splitAux, hx, if_true] at ht
        exact ih [] true (fun h => by cases h) (fun h => absurd h hr) hlast token ht
      | false =>
        simp only [splitAux, hx, if_true, Bool.false_eq_true, if_false, List.mem_cons] at ht
        rcases ht with ht | ht
        · subst ht
          simpa using h1 rfl
        · exact ih [] true (fun h => by cases h) (fun h => absurd h hr) hlast token ht
    · simp only [splitAux, hx, if_false, Bool.false_eq_true] at ht
      exact ih (x :: cur) false (fun _ => by simp) (fun _ => rfl) hlast token ht

/-- For a buffer with at least one code unit that is not white space, the
word count of the timer callback is the number of non-empty tokens of the
buffer. -/
theorem countWords_eq_wordCountSpec (buffer : JSString)
    (h : ∃ c ∈ buffer, isWhiteSpace c = false) :
    countWords buffer = wordCountSpec buffer := by
  rw [← wordCountSpec_jsTrim buffer]
  unfold countWords wordCountSpec
  have hm : buffer.dropWhile isWhiteSpace ≠ [] := by
    intro hnil
    rw [List.dropWhile_eq_nil_iff] at hnil
    obtain ⟨c, hc, hw⟩ := h
    rw [hnil c hc] at hw
    cases hw
  have hhead := List.head_dropWhile_not isWhiteSpace buffer hm
  unfold jsTrim
  generalize buffer.dropWhile isWhiteSpace = m at *
  cases m with
  | nil => exact absurd rfl hm
  | cons c m' =>
    simp only [List.head_cons] at hhead
    have hc : isWhiteSpace c = false := by simpa using hhead
    rw [List.reverse_cons, dropWhile_append_singleton isWhiteSpace c hc, List.reverse_append]
    simp only [List.reverse_cons, List.reverse_nil, List.nil_append, List.singleton_append]
    have hall : ∀ token ∈ splitWhitespace (c :: (m'.reverse.dropWhile isWhiteSpace).reverse),
        token ≠ [] := by
      simp only [splitWhitespace, splitAux, hc, Bool.false_eq_true, if_false]
      apply splitAux_tokens_nonempty _ [c] false (fun _ => by simp) (fun _ => rfl)
      intro x hx
      rw [List.getLast?_reverse] at hx
      have := List.head?_dropWhile_not isWhiteSpace m'.reverse
      rw [hx] at this
      simpa using this
    rw [List.filter_eq_self.mpr]
    intro token ht
    have := hall token ht
    cases token with
    | nil => exact absurd rfl this
    | cons _ _ => rfl

/-- A tick with elapsed time 0 leaves `wpm` unchanged. -/
theorem timerTick_zero (s : State) : (timerTick s 0).wpm = s.wpm := by
  unfold timerTick
  split
  · rfl
  · split
    · have e : (Dbl.div (Dbl.div (Dbl.ofNat 0) (Dbl.ofNat 1000)) (Dbl.ofNat 60)).isPos = false := by
        decide
      simp only [e]
      rfl
    · rfl

/-! ## C10 -/

set_option maxRecDepth 100000 in
/-- C10 fails on the code: with a buffer that is a single space the session is
Active and the buffer holds no non-empty token, but `"".split(/\s+/)` is `[""]`,
so the tick counts one word: after one minute `wpm` is set to 1, after one
second to 60, where the claim requires 0. -/
theorem timerTick_blank_buffer_counts_a_word :
    blankSession.isTyping = true ∧ blankSession.isFinished = false ∧
    blankSession.userInput = ofAscii " " ∧
    wordCountSpec blankSession.userInput = 0 ∧
    countWords blankSession.userInput = 1 ∧
    (timerTick blankSession 60000).wpm = 1 ∧
    (timerTick blankSession 1000).wpm = 60 := by
  decide

/-! ## Completion and the Finished state -/

theorem finishTest_isFinished (s : State) (acc : Nat) (p : State) :
    (finishTest s acc p).isFinished = true := by
  unfold finishTest
  simp only [checkAchievements_proj State.isFinished (fun _ _ _ => rfl) (fun _ _ => rfl)]
  split <;> rfl

theorem finishTest_isTyping (s : State) (acc : Nat) (p : State) :
    (finishTest s acc p).isTyping = false := by
  unfold finishTest
  simp only [checkAchievements_proj State.isTyping (fun _ _ _ => rfl) (fun _ _ => rfl)]
  split <;> rfl

theorem finishTest_totalTests (s : State) (acc : Nat) (p : State) :
    (finishTest s acc p).totalTests = s.totalTests + 1 := by
  unfold finishTest
  simp only [checkAchievements_proj State.totalTests (fun _ _ _ => rfl) (fun _ _ => rfl)]
  split <;> rfl

/-- What `handleInput` does to `isFinished` and `totalTests`. -/
theorem handleInput_completion (s : State) (value : JSString) (now : Nat) :
    (value.length ≥ s.text.length →
      (handleInput s value now).isFinished = true ∧
      (handleInput s value now).isTyping = false ∧
      (handleInput s value now).totalTests = s.totalTests + 1) ∧
    (value.length < s.text.length →
      (handleInput s value now).isFinished = s.isFinished ∧
      (handleInput s value now).totalTests = s.totalTests) := by
  constructor
  · intro h
    unfold handleInput
    simp only [h, if_true, finishTest_isFinished, finishTest_isTyping, finishTest_totalTests,
      and_self]
  · intro h
    have h2 : ¬ value.length ≥ s.text.length := by omega
    unfold handleInput
    simp only [h2, if_false]
    split <;> exact ⟨rfl, rfl⟩

/-! ## C13 -/

/-- C13: for every non-empty target text and every typed value, `handleInput`
triggers completion (`finishTest` runs: `totalTests` is incremented and
`isFinished` is set) if and only if `len(value) ≥ len(text)`; in a session that
is not yet finished, `isFinished` becomes true exactly in that case, and an
input shorter than the target never finishes the session. -/
theorem handleInput_completes_iff (s : State) (value : JSString) (now : Nat)
    (htext : s.text ≠ []) :
    ((handleInput s value now).totalTests = s.totalTests + 1
      ↔ value.length ≥ s.text.length) ∧
    (value.length ≥ s.text.length → (handleInput s value now).isFinished = true) ∧
    (value.length < s.text.length →
      (handleInput s value now).totalTests = s.totalTests ∧
      (handleInput s value now).isFinished = s.isFinished) ∧
    (s.isFinished = false →
      ((handleInput s value now).isFinished = true ↔ value.length ≥ s.text.length)) := by
  obtain ⟨h1, h2⟩ := handleInput_completion s value now
  by_cases h : value.length ≥ s.text.length
  · obtain ⟨a, _, c⟩ := h1 h
    exact ⟨⟨fun _ => h, fun _ => c⟩, fun _ => a, fun hlt => absurd h (by omega),
      fun _ => ⟨fun _ => h, fun _ => a⟩⟩
  · obtain ⟨a, c⟩ := h2 (by omega)
    refine ⟨⟨fun ht => ?_, fun hge => absurd hge h⟩, fun hge => absurd hge h,
      fun _ => ⟨c, a⟩, fun hnf => ⟨fun hf => ?_, fun hge => absurd hge h⟩⟩
    · omega
    · rw [a, hnf] at hf; cases hf

theorem handleInput_completes_iff_witness :
    catSession.text ≠ [] ∧ catSession.isFinished = false ∧
    ((handleInput catSession (ofAscii "ca") 1000).isFinished = true
      ↔ (ofAscii "ca").length ≥ catSession.text.length) ∧
    ((handleInput catSession catText 1000).totalTests = catSession.totalTests + 1
      ↔ catText.length ≥ catSession.text.length) :=
  ⟨by decide, by decide,
    (handleInput_completes_iff catSession (ofAscii "ca") 1000 (by decide)).2.2.2 (by decide),
    (handleInput_completes_iff catSession catText 1000 (by decide)).1⟩

/-! ## C11 -/

/-- C15: for every completed session with final wpm `w` (the `wpm` state of the
completing render), final accuracy `a` and target text `t`, `finishTest` adds 1
to the WPM-threshold counter iff `w ≥ 50`, adds 1 to the accuracy-threshold
counter iff `a ≥ 95`, adds `len(t)` to the total-characters counter, and
decreases none of them; after three sessions with wpm 55, 60, 40 and accuracy
96, 80, 97 from zero, the WPM-threshold counter is 2 and the
accuracy-threshold counter is 2. -/
theorem finishTest_daily_counters (s p : State) (finalAccuracy : Nat) :
    (finishTest s finalAccuracy p).dailyProgress.testsWithWpm
      = p.dailyProgress.testsWithWpm + (if s.wpm ≥ 50 then 1 else 0) ∧
    (finishTest s finalAccuracy p).dailyProgress.testsWithAccuracy
      = p.dailyProgress.testsWithAccuracy + (if finalAccuracy ≥ 95 then 1 else 0) ∧
    (finishTest s finalAccuracy p).dailyProgress.totalChars
      = p.dailyProgress.totalChars + s.text.length ∧
    p.dailyProgress.testsWithWpm ≤ (finishTest s finalAccuracy p).dailyProgress.testsWithWpm ∧
    p.dailyProgress.testsWithAccuracy
      ≤ (finishTest s finalAccuracy p).dailyProgress.testsWithAccuracy ∧
    p.dailyProgress.totalChars ≤ (finishTest s finalAccuracy p).dailyProgress.totalChars ∧
    initialState.dailyProgress.testsWithWpm = 0 ∧
    initialState.dailyProgress.testsWithAccuracy = 0 ∧
    (completeWith (completeWith (completeWith initialState 55 96) 60 80) 40 97).dailyProgress.testsWithWpm
      = 2 ∧
    (completeWith (completeWith (completeWith initialState 55 96) 60 80) 40 97).dailyProgress.testsWithAccuracy
      = 2 := by
  rw [finishTest_dailyProgress]
  refine ⟨rfl, rfl, rfl, by simp, by simp, by simp, by decide, by decide, by decide, by decide⟩

/-! ## C16 -/

theorem countErrors_le (text value : JSString) : countErrors text value ≤ value.length := by
  rw [countErrors_eq_filter]
  calc ((List.range value.length).filter _).length
      ≤ (List.range value.length).length := List.length_filter_le _ _
    _ = value.length := List.length_range _

/-- `Math.round` of a value below `k + 1/2` is at most `k`. -/
theorem mathRound_le (y : Dbl) (hy : 0 < y.den) (k : Nat)
    (h : y.val + 1 / 2 < k + 1) : mathRound y ≤ k := by
  have hd : (0 : ℚ) < y.den := by exact_mod_cast hy
  unfold Dbl.val at h
  have e : (y.num : ℚ) / y.den + 1 / 2 = (2 * y.num + y.den) / (2 * y.den) := by
    field_simp; ring
  rw [e, div_lt_iff₀ (by positivity)] at h
  unfold mathRound
  apply Nat.le_of_lt_succ
  rw [Nat.div_lt_iff_lt_mul (by omega)]
  have : ((2 * y.num + y.den : ℕ) : ℚ) < ((k + 1) * (2 * y.den) : ℕ) := by
    push_cast; linarith
  exact_mod_cast this

/-- The accuracy expression never exceeds 100, whatever the length. -/
theorem computeAccuracy_le (len err : Nat) : computeAccuracy len err ≤ 100 := by
  unfold computeAccuracy
  split
  · rename_i hlen
    have hle : len - err ≤ len := Nat.sub_le _ _
    generalize len - err = a at *
    rcases Nat.eq_zero_or_pos a with h0 | hpos
    · subst h0
      have e2 : mathRound (Dbl.mul (Dbl.div (Dbl.ofNat 0) (Dbl.ofNat len)) (Dbl.ofNat 100)) = 0 := by
        simp [Dbl.mul, Dbl.div, Dbl.ofNat, Dbl.round, mathRound]
      rw [e2]
      omega
    · obtain ⟨hyd, hy⟩ := accuracy_error a len hpos hle
      generalize Dbl.mul (Dbl.div (Dbl.ofNat a) (Dbl.ofNat len)) (Dbl.ofNat 100) = y at *
      have hlq : (0 : ℚ) < len := by exact_mod_cast hlen
      have haq : (a : ℚ) ≤ len := by exact_mod_cast hle
      have hq : (100 : ℚ) * a / len ≤ 100 := by
        rw [div_le_iff₀ hlq]; linarith
      rw [abs_le] at hy
      have hE : (201 : ℚ) / 2 ^ 53 < 1 / 2 := by norm_num
      apply mathRound_le y hyd 100
      push_cast
      linarith [hy.2]
  · exact le_refl _

/-- C16: for every target text and every typed value, the metrics computed by
`handleInput` satisfy `0 ≤ errorCount ≤ len(value)` and the accuracy is an
integer with `0 ≤ accuracy ≤ 100`. -/
theorem handleInput_metric_bounds (s : State) (value : JSString) (now : Nat) :
    0 ≤ (handleInput s value now).errors ∧
    (handleInput s value now).errors ≤ value.length ∧
    0 ≤ (handleInput s value now).accuracy ∧
    (handleInput s value now).accuracy ≤ 100 := by
  rw [handleInput_errors, handleInput_accuracy]
  exact ⟨Nat.zero_le _, countErrors_le _ _, Nat.zero_le _, computeAccuracy_le _ _⟩

/-! ## C17 -/

theorem guard_list_sublist (s : State) (id : AchievementId) (cond : Bool) :
    List.Sublist (if !s.achievements.contains id && cond then [id] else []) [id] := by
  split
  · exact List.Sublist.refl _
  · exact List.nil_sublist _

theorem guard_list_not_mem (s : State) (id : AchievementId) (cond : Bool) (x : AchievementId)
    (hx : x ∈ (if !s.achievements.contains id && cond then [id] else [])) :
    x ∉ s.achievements := by
  split at hx
  · rename_i hc
    simp only [List.mem_singleton] at hx
    subst hx
    simp at hc
    exact hc.1
  · simp at hx

/-- The list set by `checkAchievements` is the old list followed by a sublist
of `grantable` whose ids are not in the old list. -/
theorem checkAchievements_added (s : State) (w a t : Nat) (p : State) :
    ∃ added, (checkAchievements s w a t p).achievements = s.achievements ++ added ∧
      List.Sublist added grantable ∧ ∀ id ∈ added, id ∉ s.achievements := by
  refine ⟨_, checkAchievements_achievements s w a t p, ?_, ?_⟩
  · exact List.Sublist.append (guard_list_sublist s _ _)
      (List.Sublist.append (guard_list_sublist s _ _)
      (List.Sublist.append (guard_list_sublist s _ _)
      (List.Sublist.append (guard_list_sublist s _ _)
      (List.Sublist.append (guard_list_sublist s _ _)
      (List.Sublist.append (guard_list_sublist s _ _) (guard_list_sublist s _ _))))))
  · intro id hid
    simp only [List.mem_append] at hid
    rcases hid with h | h | h | h | h | h | h <;> exact guard_list_not_mem s _ _ id h

/-- The invariant of the unlocked list: no id twice, only grantable ids. -/
theorem checkAchievements_invariant (s : State) (w a t : Nat) (p : State)
    (h : s.achievements.Nodup ∧ ∀ id ∈ s.achievements, id ∈ grantable) :
    (checkAchievements s w a t p).achievements.Nodup ∧
    ∀ id ∈ (checkAchievements s w a t p).achievements, id ∈ grantable := by
  obtain ⟨added, e, hsub, hnot⟩ := checkAchievements_added s w a t p
  rw [e]
  constructor
  · rw [List.nodup_append]
    refine ⟨h.1, hsub.nodup (by decide), ?_⟩
    intro x hx hy
    exact hnot x hy hx
  · intro id hid
    rcases List.mem_append.mp hid with h1 | h1
    · exact h.2 id h1
    · exact hsub.subset h1

theorem handleInput_invariant (s : State) (value : JSString) (now : Nat)
    (h : s.achievements.Nodup ∧ ∀ id ∈ s.achievements, id ∈ grantable) :
    (handleInput s value now).achievements.Nodup ∧
    ∀ id ∈ (handleInput s value now).achievements, id ∈ grantable := by
  unfold handleInput
  simp only []
  split
  · rw [finishTest_achievements]
    exact checkAchievements_invariant s _ _ _ _ h
  · split <;> exact h

theorem timerTick_achievements (s : State) (elapsedMs : Nat) :
    (timerTick s elapsedMs).achievements = s.achievements := by
  unfold timerTick
  split
  · rfl
  · split
    · simp only []
      split <;> rfl
    · rfl

theorem step_invariant (s : State) (e : Event)
    (h : s.achievements.Nodup ∧ ∀ id ∈ s.achievements, id ∈ grantable) :
    (step s e).achievements.Nodup ∧ ∀ id ∈ (step s e).achievements, id ∈ grantable := by
  cases e with
  | start t => exact h
  | input value now =>
    have e : step s (.input value now)
        = if s.isFinished then s else handleInput s value now := rfl
    rw [e]
    split
    · exact h
    · exact handleInput_invariant s value now h
  | tick elapsedMs =>
    have e : step s (.tick elapsedMs) = timerTick s elapsedMs := rfl
    rw [e, timerTick_achievements]
    exact h

theorem run_invariant (events : List Event) : ∀ (s : State),
    (s.achievements.Nodup ∧ ∀ id ∈ s.achievements, id ∈ grantable) →
    (run s events).achievements.Nodup ∧ ∀ id ∈ (run s events).achievements, id ∈ grantable := by
  induction events with
  | nil => intro s h; exact h
  | cons e rest ih =>
    intro s h
    exact ih (step s e) (step_invariant s e h)

/-- C18: in every state reachable from the initial state (empty achievements
list) by any sequence of starts, inputs and timer ticks, hence by any sequence
of session completions, the unlocked list contains no id twice and never
contains `streak_3`, `streak_7` or `streak_30`; consequently it has at most 7
entries and never reaches the 10 entries of `achievementDefs`. -/
theorem unlocked_list_invariant (events : List Event) :
    initialState.achievements = [] ∧
    (run initialState events).achievements.Nodup ∧
    AchievementId.streak_3 ∉ (run initialState events).achievements ∧
    AchievementId.streak_7 ∉ (run initialState events).achievements ∧
    AchievementId.streak_30 ∉ (run initialState events).achievements ∧
    (run initialState events).achievements.length ≤ 7 ∧
    achievementDefs.length = 10 ∧
    (run initialState events).achievements.length < achievementDefs.length := by
  obtain ⟨hnd, hsub⟩ := run_invariant events initialState
    ⟨List.nodup_nil, fun id hid => by cases hid⟩
  have hlen : (run initialState events).achievements.length ≤ 7 :=
    (List.Nodup.subperm hnd hsub).length_le
  refine ⟨rfl, hnd, ?_, ?_, ?_, hlen, rfl, ?_⟩
  · intro h; exact absurd (hsub _ h) (by decide)
  · intro h; exact absurd (hsub _ h) (by decide)
  · intro h; exact absurd (hsub _ h) (by decide)
  · show _ < 10
    omega

end TypeFlow
